import Mathlib

/-!
# search-logs: rendering of API access-log entries

A shallow embedding of `main.go` (package `main` of `kai687/search-logs`) and
the properties of its rendering pipeline.

Go `string` values are modelled by Lean `String` (the log fields are decoded
from JSON, hence valid UTF-8); `len` counts the bytes of the UTF-8 encoding.
A Go `map` is an association list with distinct keys; the order in which
`range` visits it is chosen by the runtime.  A run-time panic is the result
`none`.

The functions of `main.go` keep their names.  They take as extra first
arguments the libraries `L : Libs` they call (lipgloss, chroma, `net/url`,
`time`, `unicode`, `sort`) and, where they range over a map, the runtime
`R : Runtime` that picks the iteration order.  The routines of `strings` and
`bufio`, `lipgloss.JoinVertical`, and `url.Parse` with `Query()` on origin-form
URLs are embedded in full; Go `int` is 64 bits wide.
-/

namespace SearchLogs

/-! ## The Go standard library: `strings`, `unicode`, `bufio` -/

/-- Go `len(s)` on a string: the number of bytes of its UTF-8 encoding. -/
def len (s : String) : Nat := (s.data.map Char.utf8Size).sum

/-- Go `unicode.IsSpace`: the code points with the White_Space property. -/
def isSpace (c : Char) : Bool :=
  let n := c.toNat
  (9 ≤ n && n ≤ 13) || n = 32 || n = 0x85 || n = 0xA0 || n = 0x1680 ||
  (0x2000 ≤ n && n ≤ 0x200A) || n = 0x2028 || n = 0x2029 || n = 0x202F ||
  n = 0x205F || n = 0x3000

/-- Characters of `l` with leading and trailing characters satisfying `p` removed. -/
def trimBoth (p : Char → Bool) (l : List Char) : List Char :=
  (l.dropWhile p).rdropWhile p

/-- Go `strings.TrimSpace`. -/
def TrimSpace (s : String) : String := ⟨trimBoth isSpace s.data⟩

/-- Go `strings.Trim(s, "\n")`: leading and trailing newlines removed. -/
def TrimNewlines (s : String) : String := ⟨trimBoth (fun c => c = '\n') s.data⟩

/-- Go `strings.ReplaceAll(s, "\n", "")`. -/
def RemoveNewlines (s : String) : String := ⟨s.data.filter (fun c => c ≠ '\n')⟩

/-- Pieces of `l` between occurrences of `sep`: the first piece and the rest. -/
def splitAux (sep : Char) : List Char → List Char × List (List Char)
  | [] => ([], [])
  | c :: cs =>
    if c = sep then ([], (splitAux sep cs).1 :: (splitAux sep cs).2)
    else (c :: (splitAux sep cs).1, (splitAux sep cs).2)

/-- Go `strings.Split(s, sep)` for a one-character separator, on characters. -/
def splitOnChar (sep : Char) (l : List Char) : List (List Char) :=
  (splitAux sep l).1 :: (splitAux sep l).2

/-- Go `strings.Split(s, "\n")`. -/
def SplitLines (s : String) : List String := (splitOnChar '\n' s.data).map String.mk

/-- The elements with the separator between every two neighbours. -/
def joinChars (sep : List Char) : List (List Char) → List Char
  | [] => []
  | [a] => a
  | a :: b :: r => a ++ sep ++ joinChars sep (b :: r)

/-- Go `strings.Join(elems, sep)`. -/
def Join (elems : List String) (sep : String) : String :=
  ⟨joinChars sep.data (elems.map String.data)⟩

/-- Go `a < b` on strings: the byte-wise lexicographic order, which on valid
UTF-8 is the lexicographic order of the code points. -/
def lessChars : List Char → List Char → Bool
  | _, [] => false
  | [], _ :: _ => true
  | a :: as, b :: bs =>
    decide (a.toNat < b.toNat) || (decide (a.toNat = b.toNat) && lessChars as bs)

/-- Go `a < b` on strings. -/
def strLess (a b : String) : Bool := lessChars a.data b.data

/-- Go `strings.Repeat(" ", n)`. -/
def spaces (n : Nat) : String := ⟨List.replicate n ' '⟩

/-- Go `strings.SplitN(line, ":", 2)`: the whole line when it has no colon,
otherwise the text before the first colon and the text after it. -/
def SplitN2 (line : String) : List String :=
  match line.data.span (fun c => c ≠ ':') with
  | (a, []) => [⟨a⟩]
  | (a, _ :: b) => [⟨a⟩, ⟨b⟩]

/-- Go `bufio.MaxScanTokenSize`, the size the buffer of a `bufio.Scanner`
may grow to when `Scanner.Buffer` is not called. -/
def MaxScanTokenSize : Nat := 64 * 1024

/-- Go `bufio.ScanLines` strips one trailing carriage return from a line. -/
def dropCR (line : String) : String :=
  ⟨if line.data.getLast? = some '\r' then line.data.dropLast else line.data⟩

/-- The lines of a text as `bufio.ScanLines` delimits them: the pieces between
newlines, where an empty piece after the last newline is no line. -/
def rawLines (s : String) : List String :=
  if (SplitLines s).getLast? = some "" then (SplitLines s).dropLast else SplitLines s

/-- The tokens `scanner.Scan()`/`scanner.Text()` yield for
`bufio.NewScanner(strings.NewReader(s))`: the lines of `s` in order, each
without its newline and without one trailing carriage return.  The buffer
grows by doubling up to `MaxScanTokenSize`; when it is full and holds no
newline, `Scan` records `ErrTooLong` and returns false from then on.  So
scanning stops at the first line of `MaxScanTokenSize` bytes or more
(`ParseHTTPHeaders` does not look at `scanner.Err()`). -/
def scanLines (s : String) : List String :=
  ((rawLines s).takeWhile (fun l => len l < MaxScanTokenSize)).map dropCR

/-! ## Go maps -/

/-- A Go `map[string]β`: key/value pairs with distinct keys. -/
abbrev GoMap (β : Type) := List (String × β)

/-- Go `m[k] = v`. -/
def GoMap.set {β : Type} : GoMap β → String → β → GoMap β
  | [], k, v => [(k, v)]
  | (k', v') :: m, k, v => if k' = k then (k, v) :: m else (k', v') :: GoMap.set m k v

/-- Go `v, ok := m[k]`. -/
def GoMap.get? {β : Type} : GoMap β → String → Option β
  | [], _ => none
  | (k', v') :: m, k => if k' = k then some v' else GoMap.get? m k

/-- The keys held by a map. -/
def GoMap.keys {β : Type} (m : GoMap β) : List String := m.map Prod.fst

/-! ## `ParseHTTPHeaders` -/

/-- One iteration of the loop body of `ParseHTTPHeaders`. -/
def parseHeaderLine (result : GoMap String) (line : String) : GoMap String :=
  match SplitN2 line with
  | [k, v] => result.set (TrimSpace k) (TrimSpace v)
  | _ => result

/-- `ParseHTTPHeaders` of `main.go`. -/
def ParseHTTPHeaders (headers : String) : GoMap String :=
  (scanLines headers).foldl parseHeaderLine []

/-! ## `net/url` on origin-form URLs

What `url.Parse` does with a URL that starts with one slash (no scheme, no
authority): `Parse` cuts the fragment off at the first `#`, rejects a control
character in what is left, cuts the query off at the first `?`, unescapes
the path (`setPath`) and the fragment (`setFragment`), and fails on a
malformed percent-escape in either.  The query is kept raw; `Query()` parses
it afterwards with `ParseQuery`, dropping the error and every pair that
does not unescape. -/

/-- Go `ishex` of `net/url`. -/
def ishex (c : Char) : Bool :=
  let n := c.toNat
  (48 ≤ n && n ≤ 57) || (97 ≤ n && n ≤ 102) || (65 ≤ n && n ≤ 70)

/-- Go `unhex` of `net/url`. -/
def unhex (c : Char) : Nat :=
  let n := c.toNat
  if 48 ≤ n && n ≤ 57 then n - 48
  else if 97 ≤ n && n ≤ 102 then n - 97 + 10
  else if 65 ≤ n && n ≤ 70 then n - 65 + 10
  else 0

/-- Go `unescape` of `net/url` for the path and fragment modes
(`plusIsSpace = false`) and the query-component mode (`plusIsSpace = true`):
`none` is the `EscapeError` for a `%` that is not followed by two hexadecimal
digits; otherwise every `%XY` is replaced by the byte it names (here: the
code point, the escapes being those of ASCII bytes) and, in the query mode,
every `+` by a space. -/
def unescape (plusIsSpace : Bool) : List Char → Option (List Char)
  | [] => some []
  | '%' :: a :: b :: rest =>
    if ishex a && ishex b then
      (unescape plusIsSpace rest).map (fun t => Char.ofNat (16 * unhex a + unhex b) :: t)
    else none
  | '%' :: _ => none
  | c :: rest =>
    (unescape plusIsSpace rest).map (fun t => (if c = '+' && plusIsSpace then ' ' else c) :: t)

/-- The URL without its fragment: the text before the first `#`. -/
def beforeFragment (u : String) : List Char := u.data.takeWhile (fun c => c ≠ '#')

/-- The fragment of a URL: the text after the first `#`. -/
def fragmentOf (u : String) : List Char := (u.data.dropWhile (fun c => c ≠ '#')).drop 1

/-- The raw path of a URL: the text before the first `?` and before the
fragment. -/
def pathPart (u : String) : List Char := (beforeFragment u).takeWhile (fun c => c ≠ '?')

/-- The raw query of a URL: the text after the first `?`, before the fragment. -/
def rawQueryOf (u : String) : List Char :=
  ((beforeFragment u).dropWhile (fun c => c ≠ '?')).drop 1

/-- Go `stringContainsCTLByte` of `net/url`. -/
def hasControl (l : List Char) : Bool := l.any (fun c => c.toNat < 0x20 || c.toNat = 0x7F)

/-- One round of the loop of Go `url.ParseQuery` on an `&`-separated piece: a
piece with a semicolon, an empty piece and a piece whose key or value does
not unescape are skipped; otherwise the value is appended to the values of
the key. -/
def parseQueryPair (m : GoMap (List String)) (piece : List Char) : GoMap (List String) :=
  if piece.contains ';' || piece.isEmpty then m
  else
    match unescape true (piece.takeWhile (fun c => c ≠ '=')),
          unescape true ((piece.dropWhile (fun c => c ≠ '=')).drop 1) with
    | some key, some value =>
      m.set ⟨key⟩ ((match m.get? ⟨key⟩ with | none => [] | some vs => vs) ++ [⟨value⟩])
    | _, _ => m

/-- Go `u.Query()`: `url.ParseQuery(u.RawQuery)` with the error dropped. -/
def parseQuery (rawQuery : List Char) : GoMap (List String) :=
  (splitOnChar '&' rawQuery).foldl parseQueryPair []

/-- Whether no `%` is directly followed by a hexadecimal digit from `8` to `f`:
then every percent-escape names an ASCII byte. -/
def asciiEscapes : List Char → Bool
  | [] => true
  | c :: cs => (c ≠ '%' || (match cs with
      | a :: _ => !(ishex a && 8 ≤ unhex a)
      | [] => true)) && asciiEscapes cs

/-- The URLs on which `originParse` is `url.Parse`: those that start with one
slash, not two, and whose percent-escapes name ASCII bytes. -/
def originForm (u : String) : Bool :=
  (match beforeFragment u with
    | '/' :: '/' :: _ => false
    | '/' :: _ => true
    | _ => false) && asciiEscapes (beforeFragment u)

/-- Go `url.Parse(u)` followed by `.Path` and `.Query()` on an origin-form URL;
`none` is the parse error. -/
def originParse (u : String) : Option (String × GoMap (List String)) :=
  if hasControl (beforeFragment u) then none
  else
    match unescape false (pathPart u), unescape false (fragmentOf u) with
    | some path, some _ => some (⟨path⟩, parseQuery (rawQueryOf u))
    | _, _ => none

/-! ## The libraries and the runtime -/

/-- The two border shapes `main.go` draws with. -/
inductive BorderKind where
  | normal
  | rounded
  deriving DecidableEq, Repr

/-- A `lipgloss.Style` as `main.go` builds them: the properties it sets. -/
structure Style where
  bold : Bool := false
  foreground : Option String := none
  paddingTop : Nat := 0
  paddingRight : Nat := 0
  paddingBottom : Nat := 0
  paddingLeft : Nat := 0
  border : Option BorderKind := none
  borderTop : Bool := false
  borderRight : Bool := false
  borderBottom : Bool := false
  borderLeft : Bool := false
  borderForeground : Option String := none
  maxWidth : Nat := 0
  deriving DecidableEq, Repr

/-- A token stream of the `chroma` highlighter: token type and text. -/
abbrev Tokens := List (String × String)

/-- The third-party and standard-library routines `main.go` calls whose
results depend on the terminal, the time zone or on library tables.  They are
deterministic functions of their arguments. -/
structure Libs where
  /-- The `Style.Render(s)` of lipgloss. -/
  render : Style → String → String
  /-- The `ansi.StringWidth` of lipgloss: cells a line occupies on screen. -/
  width : String → Nat
  /-- The `lipgloss.JoinHorizontal(lipgloss.Center, ...)`. -/
  joinHorizontal : List String → String
  /-- The `lexers.Get(lang)` of chroma, `none` for a nil lexer. -/
  lexersGet : String → Option String
  /-- The `lexers.Fallback` of chroma. -/
  lexersFallback : String
  /-- The `chroma.Coalesce(lexer).Tokenise(nil, source)`, `none` on error. -/
  tokenise : String → String → Option Tokens
  /-- The `formatters.Get(name)` of chroma, `none` for a nil formatter. -/
  formattersGet : String → Option String
  /-- The `formatters.Fallback` of chroma. -/
  formattersFallback : String
  /-- The `formatter.Format(w, styles.Get(style), it)`: the text written,
  `none` on error. -/
  format : String → String → Tokens → Option String
  /-- The `url.Parse(u)` followed by `.Path` and `.Query()`, `none` on error. -/
  urlParse : String → Option (String × GoMap (List String))
  /-- A control character before the fragment is a parse error. -/
  urlParse_control : ∀ u, hasControl (beforeFragment u) = true → urlParse u = none
  /-- On origin-form URLs `url.Parse` is `originParse`. -/
  urlParse_origin : ∀ u, originForm u = true → urlParse u = originParse u
  /-- The `time.Parse(time.RFC3339, date)` followed by
  `.Local().Format("2006-01-02 15:04:05")`, `none` on a parse error. -/
  timeLocal : String → Option String
  /-- The `unicode.ToLower`. -/
  lower : Char → Char
  /-- The `sort.Slice(keys, less)`: the slice afterwards. -/
  sortSlice : (String → String → Bool) → List String → List String
  /-- Sorting rearranges the slice. -/
  sortSlice_perm : ∀ less xs, (sortSlice less xs).Perm xs
  /-- For a strict weak order the slice ends up sorted. -/
  sortSlice_sorted : ∀ (less : String → String → Bool) xs,
    (∀ a b, less a b = true → less b a = false) →
    (∀ a b c, less a b = false → less b c = false → less a c = false) →
    (sortSlice less xs).Pairwise (fun a b => less b a = false)

/-- The choice the Go runtime makes when a `range` loop visits a map: given
the keys the map holds, the order in which they are visited. -/
structure Runtime where
  mapOrder : List String → List String
  mapOrder_perm : ∀ ks, (mapOrder ks).Perm ks

/-- Go `strings.ToLower`. -/
def ToLower (L : Libs) (s : String) : String := ⟨s.data.map L.lower⟩

/-- The keys of a map in the order a `range` loop visits them. -/
def rangeKeys {β : Type} (R : Runtime) (m : GoMap β) : List String := R.mapOrder m.keys

/-- The `lipgloss.JoinVertical(lipgloss.Left, strs...)` (as of lipgloss 1.0):
no string gives the empty string and one string is returned as it is;
otherwise every string is split at its newlines (`getLines`), every line is
padded on the right with spaces to the width of the widest line, and a
newline is written after every line but the last. -/
def JoinVertical (L : Libs) (strs : List String) : String :=
  match strs with
  | [] => ""
  | [s] => s
  | _ =>
    let lines := (strs.map SplitLines).flatten
    let maxWidth := (lines.map L.width).foldl max 0
    Join (lines.map (fun line => line ++ spaces (maxWidth - L.width line))) "\n"

/-! ## `main.go` -/

/-- The fields of `search.Log` (the Algolia API client) that `main.go` reads;
`QueryParams` is a `*string`, `none` being the nil pointer. -/
structure Log where
  Timestamp : String := ""
  Method : String := ""
  AnswerCode : String := ""
  QueryBody : String := ""
  Answer : String := ""
  Url : String := ""
  QueryHeaders : String := ""
  QueryParams : Option String := none
  deriving DecidableEq, Repr

def borderColor : String := "#303030"

def subtleColor : String := "#b0b0b0"

def successColor : String := "#00aa00"

def errorColor : String := "#ca0000"

def getColor : String := successColor

def postColor : String := "#0000bb"

def putColor : String := "#cc7700"

def keyColor : String := "#f92672"

/-- `Timestamp` of `main.go`. -/
def Timestamp (L : Libs) (date : String) : String :=
  let style : Style := { paddingLeft := 1, foreground := some subtleColor }
  match L.timeLocal date with
  | none => L.render style date
  | some t => L.render style t

/-- `HighlightSyntax` of `main.go`. -/
def HighlightSyntax (L : Libs) (source : String) (lang : String) : String :=
  let lexer := match L.lexersGet lang with
    | none => L.lexersFallback
    | some l => l
  let formatter := match L.formattersGet "terminal256" with
    | none => L.formattersFallback
    | some f => f
  match L.tokenise lexer source with
  | none => source
  | some iterator =>
    match L.format formatter "monokai" iterator with
    | none => source
    | some result => result

/-- `Frame` of `main.go`. -/
def Frame (L : Libs) (s : String) : String :=
  L.render { paddingTop := 1, paddingRight := 2, paddingBottom := 1, paddingLeft := 2,
             border := some .rounded, borderTop := true, borderRight := true,
             borderBottom := true, borderLeft := true,
             borderForeground := some borderColor } s

/-- `Iteration` of `main.go`. -/
def Iteration (L : Libs) (s : String) : String :=
  L.render { paddingRight := 1, border := some .normal, borderRight := true,
             borderForeground := some borderColor } s

/-- `Colored` of `main.go`. -/
def Colored (L : Libs) (s : String) (color : String) : String :=
  L.render { foreground := some color } s

/-- `Bold` of `main.go`. -/
def Bold (L : Libs) (s : String) : String :=
  L.render { bold := true } s

/-- `Trim` of `main.go`. -/
def Trim (s : String) : String := TrimSpace (RemoveNewlines s)

/-- The style of the method, status and path badges: `Padding(0, 1)` and a
right border. -/
def badgeStyle : Style :=
  { paddingRight := 1, paddingLeft := 1, border := some .normal, borderRight := true,
    borderForeground := some borderColor }

/-- The first byte of the UTF-8 encoding of a character. -/
def leadByte (c : Char) : Nat :=
  let n := c.toNat
  if n < 0x80 then n
  else if n < 0x800 then 0xC0 + n / 0x40
  else if n < 0x10000 then 0xE0 + n / 0x1000
  else 0xF0 + n / 0x40000

/-- Go `s[0]`: the first byte of the string, `none` (index out of range, a
run-time panic) when the string is empty. -/
def byte0 (s : String) : Option Nat :=
  match s.data with
  | [] => none
  | c :: _ => some (leadByte c)

/-- `Status` of `main.go`; `none` is the run-time panic of `status[0]`. -/
def Status (L : Libs) (status : String) : Option String :=
  match byte0 status with
  | none => none
  | some b =>
    let s :=
      if b = '2'.toNat then Colored L status successColor
      else if b = '4'.toNat then Colored L status errorColor
      else status
    some (L.render badgeStyle s)

/-- `Method` of `main.go`. -/
def Method (L : Libs) (method : String) : String :=
  let m :=
    if method = "GET" then Colored L method getColor
    else if method = "POST" then Colored L method postColor
    else if method = "PUT" then Colored L method putColor
    else if method = "DELETE" then Colored L method errorColor
    else method
  L.render badgeStyle m

/-- `DecomposeUrl` of `main.go`; the second component is `none` for the nil
map returned on a parse error. -/
def DecomposeUrl (L : Libs) (u : String) : String × Option (GoMap (List String)) :=
  match L.urlParse u with
  | none => (u, none)
  | some (path, query) => (path, some query)

/-- `Url` of `main.go`. -/
def Url (L : Libs) (u : String) : String := L.render badgeStyle u

/-- Go `a + b` on `int` (64 bits): the sum wraps around. -/
def addInt (a b : Int) : Int := (a + b + 9223372036854775808) % 18446744073709551616 -
  9223372036854775808

/-- `LogEntryHeader` of `main.go`; the arguments of `JoinHorizontal` are
evaluated left to right, so a panic in `Status` is the result. -/
def LogEntryHeader (L : Libs) (entry : Log) (i : Int) : Option String :=
  let style : Style :=
    { maxWidth := 120, border := some .normal, borderBottom := true,
      borderForeground := some borderColor }
  let parsedUrl := (DecomposeUrl L entry.Url).1
  let iteration := Iteration L ("#" ++ toString (addInt i 1))
  let method := Method L entry.Method
  match Status L entry.AnswerCode with
  | none => none
  | some status =>
    some (L.render style
      (L.joinHorizontal [iteration, method, status, Url L parsedUrl, Timestamp L entry.Timestamp]))

/-- The comparison `HeaderSection` hands to `sort.Slice`. -/
def headerLess (L : Libs) (a b : String) : Bool := strLess (ToLower L a) (ToLower L b)

/-- The slice `keys` of `HeaderSection` after `sort.Slice`. -/
def headerKeys (L : Libs) (R : Runtime) (entry : Log) : List String :=
  L.sortSlice (headerLess L) (rangeKeys R (ParseHTTPHeaders entry.QueryHeaders))

/-- Go `headers[key]`: the value, or the empty string for a missing key. -/
def GoMap.index (m : GoMap String) (k : String) : String :=
  match m.get? k with
  | none => ""
  | some v => v

/-- The slice `styledHeaders` of `HeaderSection`. -/
def styledHeaders (L : Libs) (R : Runtime) (entry : Log) : List String :=
  (headerKeys L R entry).map fun key =>
    Colored L key keyColor ++ ": " ++ (ParseHTTPHeaders entry.QueryHeaders).index key

/-- `HeaderSection` of `main.go`. -/
def HeaderSection (L : Libs) (R : Runtime) (entry : Log) : String :=
  let style : Style := { maxWidth := 120 }
  L.render style (JoinVertical L [Bold L "Headers", Join (styledHeaders L R entry) "\n"])

/-- The style of the sections below the headers: `MaxWidth(120)` and a top
border. -/
def sectionStyle : Style :=
  { maxWidth := 120, border := some .normal, borderTop := true,
    borderForeground := some borderColor }

/-- The slice `styledQueryParams` of `QueryParamFromUrlSection`. -/
def styledQueryParams (L : Libs) (R : Runtime) (queryParams : GoMap (List String)) :
    List String :=
  (rangeKeys R queryParams).map fun key =>
    Colored L key keyColor ++ ": " ++
      Join (match queryParams.get? key with | none => [] | some values => values) ", "

/-- `QueryParamFromUrlSection` of `main.go`. -/
def QueryParamFromUrlSection (L : Libs) (R : Runtime) (entry : Log) : String :=
  match (DecomposeUrl L entry.Url).2 with
  | none => ""
  | some queryParams =>
    if queryParams.length = 0 then ""
    else
      L.render sectionStyle
        (JoinVertical L [Bold L "Query params (from URL)",
          Join (styledQueryParams L R queryParams) "\n"])

/-- `QueryParamSection` of `main.go`. -/
def QueryParamSection (L : Libs) (entry : Log) : String :=
  match entry.QueryParams with
  | none => ""
  | some queryParams =>
    L.render sectionStyle (JoinVertical L [Bold L "Query params (from response)", queryParams])

/-- The text `RequestBodySection` hands to `HighlightSyntax` for a body that
is not empty. -/
def requestBodyText (requestBody : String) : String :=
  let requestBody := if len (Trim requestBody) = 2 then "\x7b\x7d" else requestBody
  TrimNewlines requestBody

/-- `RequestBodySection` of `main.go`. -/
def RequestBodySection (L : Libs) (entry : Log) : String :=
  let requestBody := entry.QueryBody
  if len requestBody = 0 then ""
  else
    L.render sectionStyle
      (JoinVertical L [Bold L "Request body", HighlightSyntax L (requestBodyText requestBody) "json"])

/-- `ResponseSection` of `main.go`. -/
def ResponseSection (L : Libs) (entry : Log) (WithResponse : Bool) : String :=
  if !WithResponse then ""
  else
    L.render sectionStyle
      (JoinVertical L [Bold L "Response (first 1,000 characters)",
        HighlightSyntax L (TrimNewlines entry.Answer) "json"])

/-- The five sections of a panel in the order `PrintLogEntry` stacks them. -/
def sections (L : Libs) (R : Runtime) (entry : Log) (WithResponse : Bool) : List String :=
  [HeaderSection L R entry, QueryParamFromUrlSection L R entry, QueryParamSection L entry,
   RequestBodySection L entry, ResponseSection L entry WithResponse]

/-- The block `PrintLogEntry` hands to `Frame`: the `JoinVertical` of the
header line and the five sections; `none` when `LogEntryHeader` panics. -/
def panelBlock (L : Libs) (R : Runtime) (entry : Log) (i : Int) (WithResponse : Bool) :
    Option String :=
  match LogEntryHeader L entry i with
  | none => none
  | some header => some (JoinVertical L (header :: sections L R entry WithResponse))

/-- `PrintLogEntry` of `main.go`: the text written to standard output, `none`
when the program panics before writing. -/
def PrintLogEntry (L : Libs) (R : Runtime) (entry : Log) (i : Int) (WithResponse : Bool) :
    Option String :=
  match panelBlock L R entry i WithResponse with
  | none => none
  | some block => some (Frame L block ++ "\n")

/-! ## Notions the properties are stated with -/

/-- The text before the first colon of a line, trimmed. -/
def headerKey (line : String) : String :=
  TrimSpace ⟨line.data.takeWhile (fun c => c ≠ ':')⟩

/-- The text after the first colon of a line, trimmed. -/
def headerValue (line : String) : String :=
  TrimSpace ⟨(line.data.dropWhile (fun c => c ≠ ':')).drop 1⟩

/-- Whether a line contains a colon and the text before its first colon is
`k` after trimming. -/
def isHeaderLine (k : String) (line : String) : Bool :=
  decide (':' ∈ line.data) && decide (headerKey line = k)

/-- The lines of a header blob that the scanner of `ParseHTTPHeaders` reaches:
those before the first line of `MaxScanTokenSize` bytes or more. -/
def scannedLines (blob : String) : List String :=
  (rawLines blob).takeWhile (fun l => len l < MaxScanTokenSize)

/-- The width of a vertically joined block: that of the widest line of its
strings. -/
def blockWidth (L : Libs) (strs : List String) : Nat :=
  (((strs.map SplitLines).flatten).map L.width).foldl max 0

/-- A line padded on the right with spaces to the cell width `W`. -/
def padLine (L : Libs) (W : Nat) (line : String) : String :=
  line ++ spaces (W - L.width line)

/-- The lines one string contributes to a vertically joined block of width
`W`: the empty string gives exactly one line of spaces, any other string its
own lines, each padded to the width of the block. -/
def pieceLines (L : Libs) (W : Nat) (s : String) : List String :=
  if s = "" then [spaces (W - L.width "")] else (SplitLines s).map (padLine L W)

/-- The code points with the Unicode White_Space property. -/
def whiteSpaceCodes : List Nat :=
  [0x09, 0x0A, 0x0B, 0x0C, 0x0D, 0x20, 0x85, 0xA0, 0x1680, 0x2000, 0x2001, 0x2002, 0x2003,
   0x2004, 0x2005, 0x2006, 0x2007, 0x2008, 0x2009, 0x200A, 0x2028, 0x2029, 0x202F, 0x205F,
   0x3000]

/-- The hexadecimal digits. -/
def hexDigits : List Char := "0123456789abcdefABCDEF".data

/-- A text with a malformed percent-escape: some `%` is not followed by two
hexadecimal digits. -/
def malformedEscape (l : List Char) : Prop :=
  ∃ pre post, l = pre ++ '%' :: post ∧
    ∀ a b rest, post = a :: b :: rest → ¬ (a ∈ hexDigits ∧ b ∈ hexDigits)

/-! ## A reference environment

A terminal without colour support (the `Ascii` colour profile of lipgloss,
under which no escape sequence is written), text made of printable ASCII
characters and newlines (so that a character occupies one cell), the time
zone UTC, and a chroma build in which neither the `json` lexer nor the
`terminal256` formatter is registered, so that the plain-text fall-backs
apply.  URLs are origin-form.  Maps are visited in insertion order, or in the
reverse of it. -/

/-- A line padded on the right with spaces to `n` characters. -/
def padTo (n : Nat) (l : String) : String := l ++ spaces (n - l.length)

/-- The number of characters of the longest line. -/
def widest (ls : List String) : Nat := (ls.map String.length).foldl max 0

/-- The `renderHorizontalEdge` of lipgloss for one-cell border characters. -/
def plainEdge (left right : String) (w : Nat) : String :=
  left ++ ⟨List.replicate (w - left.length) '─'⟩ ++ right

/-- The `applyBorder` of lipgloss on the lines of a block. -/
def plainBorder (st : Style) (ls : List String) : List String :=
  match st.border with
  | none => ls
  | some kind =>
    if !(st.borderTop || st.borderRight || st.borderBottom || st.borderLeft) then ls
    else
      let w := widest ls + (if st.borderLeft then 1 else 0)
      let corner (normal rounded : String) (side1 side2 : Bool) : String :=
        if side1 && side2 then (match kind with | .normal => normal | .rounded => rounded)
        else ""
      let top := plainEdge (corner "┌" "╭" st.borderTop st.borderLeft)
        (corner "┐" "╮" st.borderTop st.borderRight) w
      let bottom := plainEdge (corner "└" "╰" st.borderBottom st.borderLeft)
        (corner "┘" "╯" st.borderBottom st.borderRight) w
      (if st.borderTop then [top] else []) ++
      ls.map (fun l => (if st.borderLeft then "│" else "") ++ l ++
        (if st.borderRight then "│" else "")) ++
      (if st.borderBottom then [bottom] else [])

/-- The `Style.Render` of lipgloss under the `Ascii` colour profile: padding,
alignment of the lines of a block to its widest line, border, truncation to
the maximal width. -/
def plainRender (st : Style) (s : String) : String :=
  let ls1 := (SplitLines s).map fun l => spaces st.paddingLeft ++ l ++ spaces st.paddingRight
  let ls2 := List.replicate st.paddingTop "" ++ ls1 ++ List.replicate st.paddingBottom ""
  let ls3 := if 1 < ls2.length then ls2.map (padTo (widest ls2)) else ls2
  let ls4 := plainBorder st ls3
  let ls5 := if 0 < st.maxWidth then ls4.map (fun l => ⟨l.data.take st.maxWidth⟩) else ls4
  Join ls5 "\n"

/-- The `lipgloss.JoinHorizontal(lipgloss.Center, ...)`: shorter blocks get
empty lines above and below (one more above when the number is odd), every
line is padded to the width of its block, and the lines are laid side by
side. -/
def plainJoinHorizontal (strs : List String) : String :=
  match strs with
  | [] => ""
  | [s] => s
  | _ =>
    let blocks := strs.map SplitLines
    let maxHeight := (blocks.map List.length).foldl max 0
    let padded := blocks.map fun b =>
      let n := maxHeight - b.length
      let split := (n + 1) / 2
      (List.replicate split "" ++ b ++ List.replicate (n - split) "").map (padTo (widest b))
    Join (padded.foldl (List.zipWith (fun a b => a ++ b)) (List.replicate maxHeight "")) "\n"

/-- A stand-in for `time.Parse(time.RFC3339, ·)` with local zone UTC, exact
on valid timestamps of the form `2006-01-02T15:04:05Z`. -/
def plainTimeLocal (date : String) : Option String :=
  match date.data with
  | [y1, y2, y3, y4, '-', m1, m2, '-', d1, d2, 'T', h1, h2, ':', n1, n2, ':', s1, s2, 'Z'] =>
    if [y1, y2, y3, y4, m1, m2, d1, d2, h1, h2, n1, n2, s1, s2].all Char.isDigit then
      some ⟨[y1, y2, y3, y4, '-', m1, m2, '-', d1, d2, ' ', h1, h2, ':', n1, n2, ':', s1, s2]⟩
    else none
  | _ => none

/-- The inner loop of Go `insertionSort_func` on the sorted part of the slice
held last element first: the new element moves left past every element it is
less than. -/
def insertBack (less : String → String → Bool) (x : String) : List String → List String
  | [] => [x]
  | y :: ys => if less x y then y :: insertBack less x ys else x :: y :: ys

/-- Go `insertionSort_func`, which `sort.Slice` runs on a slice of at most
twelve elements. -/
def insertionSort (less : String → String → Bool) (xs : List String) : List String :=
  (xs.foldl (fun acc x => insertBack less x acc) []).reverse

theorem insertBack_perm (less : String → String → Bool) (x : String) (l : List String) :
    (insertBack less x l).Perm (x :: l) := by
  induction l with
  | nil => exact List.Perm.refl _
  | cons y ys ih =>
    unfold insertBack
    split
    · exact (List.Perm.cons y ih).trans (List.Perm.swap x y ys)
    · exact List.Perm.refl _

theorem foldl_insertBack_perm (less : String → String → Bool) (xs acc : List String) :
    (xs.foldl (fun acc x => insertBack less x acc) acc).Perm (xs.reverse ++ acc) := by
  induction xs generalizing acc with
  | nil => exact List.Perm.refl _
  | cons x xs ih =>
    simp only [List.foldl_cons, List.reverse_cons, List.append_assoc, List.singleton_append]
    exact (ih _).trans (List.Perm.append_left _ (insertBack_perm less x acc))

theorem insertionSort_perm (less : String → String → Bool) (xs : List String) :
    (insertionSort less xs).Perm xs := by
  unfold insertionSort
  refine (List.reverse_perm _).trans ?_
  have h := foldl_insertBack_perm less xs []
  rw [List.append_nil] at h
  exact h.trans (List.reverse_perm xs)

theorem insertBack_sorted (less : String → String → Bool)
    (hasymm : ∀ a b, less a b = true → less b a = false)
    (hneg : ∀ a b c, less a b = false → less b c = false → less a c = false)
    (x : String) (l : List String) (hl : l.Pairwise (fun a b => less a b = false)) :
    (insertBack less x l).Pairwise (fun a b => less a b = false) := by
  induction l with
  | nil => simp [insertBack]
  | cons y ys ih =>
    rw [List.pairwise_cons] at hl
    unfold insertBack
    split
    · rename_i hxy
      rw [List.pairwise_cons]
      refine ⟨fun z hz => ?_, ih hl.2⟩
      rcases List.mem_cons.1 ((insertBack_perm less x ys).subset hz) with rfl | hz
      · exact hasymm _ _ hxy
      · exact hl.1 z hz
    · rename_i hxy
      have hxy : less x y = false := by simpa using hxy
      rw [List.pairwise_cons]
      refine ⟨fun z hz => ?_, List.pairwise_cons.2 hl⟩
      rcases List.mem_cons.1 hz with rfl | hz
      · exact hxy
      · exact hneg _ _ _ hxy (hl.1 z hz)

theorem insertionSort_sorted (less : String → String → Bool) (xs : List String)
    (hasymm : ∀ a b, less a b = true → less b a = false)
    (hneg : ∀ a b c, less a b = false → less b c = false → less a c = false) :
    (insertionSort less xs).Pairwise (fun a b => less b a = false) := by
  unfold insertionSort
  rw [List.pairwise_reverse]
  suffices h : ∀ acc : List String, acc.Pairwise (fun a b => less a b = false) →
      (xs.foldl (fun acc x => insertBack less x acc) acc).Pairwise
        (fun a b => less a b = false) from h [] List.Pairwise.nil
  induction xs with
  | nil => exact fun acc h => h
  | cons x xs ih => exact fun acc h => ih _ (insertBack_sorted less hasymm hneg x acc h)

/-- The reference libraries. -/
def plainLibs : Libs where
  render := plainRender
  width := String.length
  joinHorizontal := plainJoinHorizontal
  lexersGet := fun _ => none
  lexersFallback := "fallback"
  tokenise := fun _ source => some [("Text", source)]
  formattersGet := fun _ => none
  formattersFallback := "noop"
  format := fun _ _ tokens => some (Join (tokens.map Prod.snd) "")
  urlParse := originParse
  urlParse_control := fun u h => by simp only [originParse, h, if_true]
  urlParse_origin := fun _ _ => rfl
  timeLocal := plainTimeLocal
  lower := Char.toLower
  sortSlice := insertionSort
  sortSlice_perm := insertionSort_perm
  sortSlice_sorted := fun less xs h1 h2 => insertionSort_sorted less xs h1 h2

/-- A runtime whose `range` visits the keys of a map in insertion order. -/
def inOrder : Runtime where
  mapOrder := fun ks => ks
  mapOrder_perm := fun ks => List.Perm.refl ks

/-- A runtime whose `range` visits the keys of a map in reverse insertion
order. -/
def reversed : Runtime where
  mapOrder := List.reverse
  mapOrder_perm := List.reverse_perm

/-- A rendering that shows the foreground colour of a style as a tag around
the text, and is `plainRender` otherwise. -/
def tagRender (st : Style) (s : String) : String :=
  plainRender st (match st.foreground with
    | some color => "<" ++ color ++ ">" ++ s ++ "</>"
    | none => s)

/-- The reference libraries with the colours made visible: `render` writes the
foreground colour as a tag, and the highlighter is one that knows every
lexer and formatter and writes each token with the names of the lexer, the
formatter and the style it was given. -/
def tagLibs : Libs :=
  { plainLibs with
    render := tagRender
    lexersGet := fun lang => some lang
    tokenise := fun lexer source => some [(lexer, source)]
    formattersGet := fun name => some name
    format := fun formatter style tokens =>
      some (Join (tokens.map fun t =>
        "[" ++ t.1 ++ " " ++ formatter ++ " " ++ style ++ ":" ++ t.2 ++ "]") "") }

/-! ## Inputs of the examples -/

/-- The entry of the examples: a `GET` request answered with `200`, with one
header, no query parameter and no request body. -/
def plainEntry : Log :=
  { Method := "GET", AnswerCode := "200", Url := "/1/keys", QueryHeaders := "Accept: */*",
    Timestamp := "2024-01-02T03:04:05Z" }

/-- An entry whose header blob holds two keys that differ only in letter case. -/
def caseVariants : Log := { QueryHeaders := "X-Key: 1\nx-key: 2" }

/-- An entry whose header blob holds two keys with different lower-cased
forms, the later one sorting first. -/
def twoHeaders : Log := { QueryHeaders := "X-Key: abc\nContent-Type: application/json" }

/-- An entry whose URL carries two distinct query keys. -/
def twoParams : Log := { Url := "/1/indexes?a=1&b=2" }

/-- A header blob whose first line is `MaxScanTokenSize` bytes long and whose
second line is a well-formed header. -/
def longBlob : String := ⟨List.replicate MaxScanTokenSize 'x'⟩ ++ "\nK: v"

/-! ## Properties of `ParseHTTPHeaders` -/

theorem GoMap.get?_set {β : Type} (m : GoMap β) (k k' : String) (v : β) :
    (m.set k v).get? k' = if k = k' then some v else m.get? k' := by
  induction m with
  | nil => simp [GoMap.set, GoMap.get?]
  | cons p m ih =>
    obtain ⟨a, b⟩ := p
    by_cases h : a = k
    · subst h
      by_cases h' : a = k' <;> simp [GoMap.set, GoMap.get?, h']
    · by_cases h' : a = k'
      · subst h'
        have : ¬ k = a := fun e => h e.symm
        simp [GoMap.set, GoMap.get?, h, this]
      · simp [GoMap.set, GoMap.get?, h, h', ih]

theorem GoMap.mem_keys_iff {β : Type} (m : GoMap β) (k : String) :
    k ∈ m.keys ↔ (m.get? k).isSome = true := by
  induction m with
  | nil => simp [GoMap.keys, GoMap.get?]
  | cons p m ih =>
    obtain ⟨a, b⟩ := p
    by_cases h : a = k
    · simp [GoMap.keys, GoMap.get?, h]
    · have h' : ¬ k = a := fun e => h e.symm
      simp only [GoMap.keys, List.map_cons, List.mem_cons, h', false_or, GoMap.get?, h,
        if_false]
      exact ih

theorem GoMap.mem_keys_set {β : Type} (m : GoMap β) (k k' : String) (v : β) :
    k' ∈ (m.set k v).keys ↔ k' = k ∨ k' ∈ m.keys := by
  rw [GoMap.mem_keys_iff, GoMap.get?_set, GoMap.mem_keys_iff]
  by_cases h : k = k'
  · simp [h]
  · have h' : ¬ k' = k := fun e => h e.symm
    simp [h, h']

theorem GoMap.nodup_keys_set {β : Type} (m : GoMap β) (k : String) (v : β)
    (h : m.keys.Nodup) : (m.set k v).keys.Nodup := by
  induction m with
  | nil => simp [GoMap.set, GoMap.keys]
  | cons p m ih =>
    obtain ⟨a, b⟩ := p
    have h' : a ∉ GoMap.keys m ∧ (GoMap.keys m).Nodup := by
      simpa [GoMap.keys] using h
    by_cases e : a = k
    · subst e
      simpa [GoMap.set, GoMap.keys] using h'
    · have hs : GoMap.set ((a, b) :: m) k v = (a, b) :: GoMap.set m k v := by
        simp [GoMap.set, e]
      rw [hs]
      have : a ∉ GoMap.keys (GoMap.set m k v) := by
        rw [GoMap.mem_keys_set]
        exact fun hh => hh.elim e h'.1
      have ih' := ih h'.2
      simp only [GoMap.keys, List.map_cons, List.nodup_cons]
      exact ⟨this, ih'⟩

theorem parseHeaderLine_nodup (m : GoMap String) (line : String) (h : m.keys.Nodup) :
    (parseHeaderLine m line).keys.Nodup := by
  unfold parseHeaderLine
  split
  · exact GoMap.nodup_keys_set _ _ _ h
  · exact h

/-- The map `ParseHTTPHeaders` returns holds every key once. -/
theorem parseHTTPHeaders_nodup (headers : String) : (ParseHTTPHeaders headers).keys.Nodup := by
  unfold ParseHTTPHeaders
  suffices h : ∀ (ls : List String) (m : GoMap String), m.keys.Nodup →
      (ls.foldl parseHeaderLine m).keys.Nodup from h _ [] List.nodup_nil
  intro ls
  induction ls with
  | nil => exact fun m h => h
  | cons l ls ih => exact fun m h => ih _ (parseHeaderLine_nodup m l h)

theorem trimBoth_concat (p : Char → Bool) (l : List Char) (c : Char) (hc : p c = true) :
    trimBoth p (l ++ [c]) = trimBoth p l := by
  unfold trimBoth
  by_cases h : ∀ a ∈ l, p a = true
  · have h1 : (l ++ [c]).dropWhile p = [] := by
      rw [List.dropWhile_eq_nil_iff]
      intro a ha
      rcases List.mem_append.1 ha with ha | ha
      · exact h a ha
      · simp at ha; subst ha; exact hc
    have h2 : l.dropWhile p = [] := List.dropWhile_eq_nil_iff.2 h
    rw [h1, h2]
  · have h1 : (l ++ [c]).dropWhile p = l.dropWhile p ++ [c] := by
      rw [List.dropWhile_append]
      have : ¬ (l.dropWhile p).isEmpty = true := by
        rw [List.isEmpty_iff, List.dropWhile_eq_nil_iff]
        exact h
      simp [this]
    rw [h1, List.rdropWhile_concat_pos _ _ _ hc]

theorem colon_mem_iff_dropWhile (l : List Char) :
    ':' ∈ l ↔ l.dropWhile (fun c => decide (c ≠ ':')) ≠ [] := by
  rw [Ne, List.dropWhile_eq_nil_iff]
  constructor
  · intro h hall
    simpa using hall ':' h
  · intro h
    by_contra hc
    apply h
    intro x hx
    have : x ≠ ':' := fun e => hc (e ▸ hx)
    simpa using this

theorem dropWhile_colon_head (l : List Char) (c : Char) (b : List Char)
    (h : l.dropWhile (fun c => decide (c ≠ ':')) = c :: b) : c = ':' := by
  have hne : l.dropWhile (fun c => decide (c ≠ ':')) ≠ [] := by rw [h]; simp
  have := List.head_dropWhile_not (fun c => decide (c ≠ ':')) l hne
  simp only [h, List.head_cons] at this
  simpa using this

theorem parseHeaderLine_eq (m : GoMap String) (line : String) :
    parseHeaderLine m line =
      if ':' ∈ line.data then m.set (headerKey line) (headerValue line) else m := by
  unfold parseHeaderLine SplitN2 headerKey headerValue
  rw [List.span_eq_take_drop]
  cases hd : line.data.dropWhile (fun c => decide (c ≠ ':')) with
  | nil =>
    have : ¬ ':' ∈ line.data := by
      rw [colon_mem_iff_dropWhile, hd]; simp
    simp [this]
  | cons c b =>
    have : ':' ∈ line.data := by
      rw [colon_mem_iff_dropWhile, hd]; simp
    simp [this]

theorem dropCR_cases (line : String) :
    dropCR line = line ∨ ∃ l, line.data = l ++ ['\r'] ∧ (dropCR line).data = l := by
  unfold dropCR
  by_cases h : line.data.getLast? = some '\r'
  · right
    obtain ⟨l, hl⟩ := List.getLast?_eq_some_iff.1 h
    exact ⟨l, hl, by simp [hl]⟩
  · left
    simp [h]

theorem colon_mem_dropCR (line : String) : ':' ∈ (dropCR line).data ↔ ':' ∈ line.data := by
  rcases dropCR_cases line with h | ⟨l, h1, h2⟩
  · rw [h]
  · rw [h1, h2]
    simp

theorem headerKey_dropCR (line : String) (h : ':' ∈ line.data) :
    headerKey (dropCR line) = headerKey line := by
  rcases dropCR_cases line with h' | ⟨l, h1, h2⟩
  · rw [h']
  · unfold headerKey
    rw [h1, h2]
    have hl : ':' ∈ l := by rw [h1] at h; simpa using h
    congr 2
    rw [List.takeWhile_append]
    have hlt : ¬ (l.takeWhile (fun c => decide (c ≠ ':'))).length = l.length := by
      intro e
      have hall := List.takeWhile_eq_self_iff.1
        ((List.takeWhile_sublist (fun c => decide (c ≠ ':'))).eq_of_length e)
      simpa using hall ':' hl
    rw [if_neg hlt]

theorem headerValue_dropCR (line : String) (h : ':' ∈ line.data) :
    headerValue (dropCR line) = headerValue line := by
  rcases dropCR_cases line with h' | ⟨l, h1, h2⟩
  · rw [h']
  · unfold headerValue TrimSpace
    rw [h1, h2]
    have hl : ':' ∈ l := by rw [h1] at h; simpa using h
    have hne := (colon_mem_iff_dropWhile l).1 hl
    congr 1
    rw [List.dropWhile_append]
    have hemp : ¬ (l.dropWhile (fun c => decide (c ≠ ':'))).isEmpty = true := by
      rw [List.isEmpty_iff]; exact hne
    simp only [hemp, if_false]
    cases hd : l.dropWhile (fun c => decide (c ≠ ':')) with
    | nil => exact absurd hd hne
    | cons c b =>
      simp only [List.cons_append, List.drop_succ_cons, List.drop_zero]
      exact (trimBoth_concat isSpace b '\r' (by decide)).symm

theorem parseHeaderLine_dropCR (m : GoMap String) (line : String) :
    parseHeaderLine m (dropCR line) =
      if ':' ∈ line.data then m.set (headerKey line) (headerValue line) else m := by
  rw [parseHeaderLine_eq]
  by_cases h : ':' ∈ line.data
  · rw [if_pos ((colon_mem_dropCR line).2 h), if_pos h, headerKey_dropCR line h,
      headerValue_dropCR line h]
  · rw [if_neg (fun h' => h ((colon_mem_dropCR line).1 h')), if_neg h]

theorem get?_foldl_parseHeaderLine (k : String) (ls : List String) (m : GoMap String) :
    (ls.foldl (fun m l => parseHeaderLine m (dropCR l)) m).get? k =
      ((ls.reverse.find? (isHeaderLine k)).map headerValue).or (m.get? k) := by
  induction ls generalizing m with
  | nil => simp
  | cons l ls ih =>
    rw [List.foldl_cons, ih, List.reverse_cons, List.find?_append]
    cases hf : ls.reverse.find? (isHeaderLine k) with
    | some x => simp
    | none =>
      rw [parseHeaderLine_dropCR]
      by_cases hc : ':' ∈ l.data
      · by_cases hk : headerKey l = k
        · simp [isHeaderLine, hc, hk, GoMap.get?_set]
        · simp [isHeaderLine, hc, hk, GoMap.get?_set]
      · simp [isHeaderLine, hc]

theorem parseHTTPHeaders_get? (blob k : String) :
    (ParseHTTPHeaders blob).get? k =
      ((scannedLines blob).reverse.find? (isHeaderLine k)).map headerValue := by
  unfold ParseHTTPHeaders scanLines
  rw [List.foldl_map, get?_foldl_parseHeaderLine]
  simp [scannedLines, GoMap.get?]

theorem find?_reverse_eq_some {α : Type} (p : α → Bool) (l : List α) (a : α) :
    l.reverse.find? p = some a ↔
      ∃ pre post, l = pre ++ a :: post ∧ p a = true ∧ ∀ x ∈ post, ¬ p x = true := by
  rw [List.find?_eq_some]
  constructor
  · rintro ⟨hpa, as, bs, hl, has⟩
    refine ⟨bs.reverse, as.reverse, ?_, hpa, ?_⟩
    · have := congrArg List.reverse hl
      simpa using this
    · intro x hx
      have := has x (List.mem_reverse.1 hx)
      simpa using this
  · rintro ⟨pre, post, hl, hpa, hpost⟩
    refine ⟨hpa, post.reverse, pre.reverse, ?_, ?_⟩
    · rw [hl]; simp
    · intro x hx
      have := hpost x (List.mem_reverse.1 hx)
      simpa using this

theorem splitAux_append_sep (sep : Char) (a b : List Char) (ha : sep ∉ a) :
    splitAux sep (a ++ sep :: b) = (a, (splitAux sep b).1 :: (splitAux sep b).2) := by
  induction a with
  | nil => simp [splitAux]
  | cons c cs ih =>
    have hc : ¬ c = sep := fun e => ha (by simp [e])
    have hcs : sep ∉ cs := fun h => ha (List.mem_cons_of_mem _ h)
    simp [splitAux, hc, ih hcs]

theorem splitOnChar_append_sep (sep : Char) (a b : List Char) (ha : sep ∉ a) :
    splitOnChar sep (a ++ sep :: b) = a :: splitOnChar sep b := by
  unfold splitOnChar
  rw [splitAux_append_sep sep a b ha]

theorem splitAux_of_not_mem (sep : Char) (a : List Char) (ha : sep ∉ a) :
    splitAux sep a = (a, []) := by
  induction a with
  | nil => simp [splitAux]
  | cons c cs ih =>
    have hc : ¬ c = sep := fun e => ha (by simp [e])
    have hcs : sep ∉ cs := fun h => ha (List.mem_cons_of_mem _ h)
    simp [splitAux, hc, ih hcs]

theorem splitOnChar_of_not_mem (sep : Char) (a : List Char) (ha : sep ∉ a) :
    splitOnChar sep a = [a] := by
  unfold splitOnChar
  rw [splitAux_of_not_mem sep a ha]

theorem len_replicate (n : Nat) (c : Char) : len ⟨List.replicate n c⟩ = n * c.utf8Size := by
  simp [len, List.map_replicate, List.sum_replicate]

theorem rawLines_long (n : Nat) :
    rawLines (⟨List.replicate n 'x'⟩ ++ "\nK: v") = [⟨List.replicate n 'x'⟩, "K: v"] := by
  have hx : '\n' ∉ List.replicate n 'x' := by
    intro h
    have := (List.mem_replicate.1 h).2
    exact absurd this (by decide)
  have hs : SplitLines (⟨List.replicate n 'x'⟩ ++ "\nK: v") =
      [⟨List.replicate n 'x'⟩, "K: v"] := by
    unfold SplitLines
    have hd : (String.mk (List.replicate n 'x') ++ "\nK: v").data =
        List.replicate n 'x' ++ '\n' :: ['K', ':', ' ', 'v'] := by
      rw [String.data_append]
    rw [hd, splitOnChar_append_sep _ _ _ hx, splitOnChar_of_not_mem _ _ (by decide)]
    rfl
  unfold rawLines
  rw [hs]
  have : ¬ ([String.mk (List.replicate n 'x'), "K: v"].getLast? = some "") := by
    simp only [List.getLast?_cons_cons, List.getLast?_singleton]
    decide
  rw [if_neg this]

theorem parseHTTPHeaders_longBlob : ParseHTTPHeaders longBlob = [] := by
  have hl : ¬ len ⟨List.replicate MaxScanTokenSize 'x'⟩ < MaxScanTokenSize := by
    rw [len_replicate]
    have : Char.utf8Size 'x' = 1 := by decide
    rw [this]
    omega
  unfold ParseHTTPHeaders scanLines longBlob
  rw [rawLines_long, List.takeWhile_cons_of_neg (by simpa using hl)]
  rfl

/-- A blob with a repeated key, a line without colon, a value that contains
a colon, and lines ending in carriage returns. -/
theorem parseHTTPHeaders_example :
    ParseHTTPHeaders "A: 1\r\nno colon\n a :x:y \r\nA:2\n" = [("A", "2"), ("a", "x:y")] ∧
    ParseHTTPHeaders "Content-Type: application/json\nX-Key: abc" =
      [("Content-Type", "application/json"), ("X-Key", "abc")] := by
  decide

/-- C1, as amended: for every header blob and every key `k`, the parsed map
contains `k` exactly when some line among those before the first line of
65536 bytes or more contains a colon and has `k` as the trimmed text before
its first colon; the value stored is then the trimmed text after the first
colon of the last such line. -/
theorem parseHTTPHeaders_spec (blob k : String) :
    (k ∈ (ParseHTTPHeaders blob).keys ↔
      ∃ line ∈ scannedLines blob, ':' ∈ line.data ∧ headerKey line = k) ∧
    (∀ v, (ParseHTTPHeaders blob).get? k = some v ↔
      ∃ pre line post, scannedLines blob = pre ++ line :: post ∧
        (':' ∈ line.data ∧ headerKey line = k) ∧
        (∀ l ∈ post, ¬ (':' ∈ l.data ∧ headerKey l = k)) ∧
        v = headerValue line) := by
  constructor
  · rw [GoMap.mem_keys_iff, parseHTTPHeaders_get?]
    simp [isHeaderLine]
  · intro v
    rw [parseHTTPHeaders_get?, Option.map_eq_some']
    constructor
    · rintro ⟨line, hfind, hv⟩
      obtain ⟨pre, post, hl, hp, hpost⟩ := (find?_reverse_eq_some _ _ _).1 hfind
      refine ⟨pre, line, post, hl, by simpa [isHeaderLine] using hp, ?_, hv.symm⟩
      intro l hl'
      simpa [isHeaderLine] using hpost l hl'
    · rintro ⟨pre, line, post, hl, hp, hpost, hv⟩
      refine ⟨line, (find?_reverse_eq_some _ _ _).2 ⟨pre, post, hl, ?_, ?_⟩, hv.symm⟩
      · simpa [isHeaderLine] using hp
      · intro l hl'
        simpa [isHeaderLine] using hpost l hl'

/-- When every line of the blob is shorter than `MaxScanTokenSize` bytes the
scanner reaches all of them. -/
theorem scannedLines_of_short (blob : String)
    (h : ∀ line ∈ rawLines blob, len line < MaxScanTokenSize) :
    scannedLines blob = rawLines blob := by
  unfold scannedLines
  rw [List.takeWhile_eq_self_iff]
  intro line hline
  simpa using h line hline

/-- C1, as stated, fails: the second line of `longBlob` is the header line
`K: v`, yet the parsed map does not contain the key `K`, because the scanner
gives up at the first line, which is 65536 bytes long. -/
theorem parseHTTPHeaders_long_line :
    "K: v" ∈ rawLines longBlob ∧ ':' ∈ "K: v".data ∧ headerKey "K: v" = "K" ∧
      "K" ∉ (ParseHTTPHeaders longBlob).keys := by
  refine ⟨?_, by decide, by decide, ?_⟩
  · unfold longBlob
    rw [rawLines_long]
    simp
  · rw [parseHTTPHeaders_longBlob]
    simp [GoMap.keys]

/-- The iteration label of the last entry an `int` can number wraps around. -/
theorem addInt_examples :
    addInt 0 1 = 1 ∧ addInt 41 1 = 42 ∧
    addInt 9223372036854775807 1 = -9223372036854775808 := by
  decide

/-! ## Badges: `Status` and `Method` -/

theorem leadByte_eq_iff (c d : Char) (hd : d.toNat < 0x80) :
    leadByte c = d.toNat ↔ c = d := by
  constructor
  · intro h
    have hc : c.toNat = d.toNat := by
      unfold leadByte at h
      simp only at h
      split at h
      · exact h
      · split at h
        · omega
        · split at h <;> omega
    have h1 := Char.ofNat_toNat c
    have h2 := Char.ofNat_toNat d
    rw [← h1, ← h2, hc]
  · rintro rfl
    unfold leadByte
    simp [hd]

/-- C2: the code panics where the claim says it returns.  For an entry whose
status code is the empty string, `Status` fails with the index-out-of-range
panic of `status[0]`, and so do `LogEntryHeader` and `PrintLogEntry`, which
writes nothing. -/
theorem status_empty_panics (L : Libs) (R : Runtime) (entry : Log) (i : Int) (w : Bool) :
    Status L "" = none ∧
    LogEntryHeader L { entry with AnswerCode := "" } i = none ∧
    PrintLogEntry L R { entry with AnswerCode := "" } i w = none := by
  have h : Status L "" = none := rfl
  refine ⟨h, ?_, ?_⟩
  · simp only [LogEntryHeader, h]
  · simp only [PrintLogEntry, panelBlock, LogEntryHeader, h]

/-- C7: the badge colours follow the fixed table, for every terminal.  `Method`
renders the method inside the badge style after colouring it with the
success colour `#00aa00` for `GET`, the info colour `#0000bb` for `POST`, the
warning colour `#cc7700` for `PUT` and the error colour `#ca0000` for
`DELETE`, and renders every other method uncoloured; `Status` returns for
every non-empty status string, coloured with the success colour when its
first character is `2`, with the error colour when it is `4`, and
uncoloured otherwise.  On a terminal that shows a colour as a tag:
`GET` and `200` carry the success tag, `DELETE` and `404` the error tag,
`PATCH` and `302` no tag. -/
theorem badge_colours (L : Libs) :
    (∀ m, Method L m =
      L.render
        { paddingRight := 1, paddingLeft := 1, border := some .normal, borderRight := true,
          borderForeground := some "#303030" }
        (if m = "GET" then L.render { foreground := some "#00aa00" } m
         else if m = "POST" then L.render { foreground := some "#0000bb" } m
         else if m = "PUT" then L.render { foreground := some "#cc7700" } m
         else if m = "DELETE" then L.render { foreground := some "#ca0000" } m
         else m)) ∧
    (∀ s, s ≠ "" → Status L s = some
      (L.render
        { paddingRight := 1, paddingLeft := 1, border := some .normal, borderRight := true,
          borderForeground := some "#303030" }
        (if s.data.head? = some '2' then L.render { foreground := some "#00aa00" } s
         else if s.data.head? = some '4' then L.render { foreground := some "#ca0000" } s
         else s))) ∧
    (Method tagLibs "GET" = " <#00aa00>GET</> │" ∧
      Status tagLibs "200" = some " <#00aa00>200</> │") ∧
    (Method tagLibs "DELETE" = " <#ca0000>DELETE</> │" ∧
      Status tagLibs "404" = some " <#ca0000>404</> │") ∧
    (Method tagLibs "PATCH" = " PATCH │" ∧ Status tagLibs "302" = some " 302 │") ∧
    (Method tagLibs "POST" = " <#0000bb>POST</> │" ∧
      Method tagLibs "PUT" = " <#cc7700>PUT</> │" ∧
      Method tagLibs "get" = " get │" ∧
      Status tagLibs "500" = some " 500 │" ∧
      Status tagLibs "2" = some " <#00aa00>2</> │") := by
  refine ⟨?_, ?_, by decide, by decide, by decide, by decide⟩
  · intro m
    simp only [Method, Colored, badgeStyle, getColor, successColor, postColor, putColor,
      errorColor, borderColor]
  · intro s hs
    cases hd : s.data with
    | nil => exact absurd (String.ext hd) hs
    | cons c cs =>
      have h2 := leadByte_eq_iff c '2' (by decide)
      have h4 := leadByte_eq_iff c '4' (by decide)
      simp only [Status, byte0, hd, List.head?_cons, Option.some.injEq, h2, h4, Colored,
        badgeStyle, successColor, errorColor, borderColor]

/-! ## `DecomposeUrl` -/

theorem ishex_iff (c : Char) : ishex c = true ↔ c ∈ hexDigits := by
  have hmem : c ∈ hexDigits ↔ c.toNat ∈ hexDigits.map Char.toNat := by
    constructor
    · exact fun h => List.mem_map_of_mem _ h
    · intro h
      obtain ⟨d, hd, e⟩ := List.mem_map.1 h
      have : d = c := by
        have e1 := Char.ofNat_toNat c
        have e2 := Char.ofNat_toNat d
        rw [← e1, ← e2, e]
      exact this ▸ hd
  have hl : hexDigits.map Char.toNat =
      [48, 49, 50, 51, 52, 53, 54, 55, 56, 57, 97, 98, 99, 100, 101, 102,
       65, 66, 67, 68, 69, 70] := by decide
  rw [hmem, hl]
  simp only [ishex, Bool.or_eq_true, Bool.and_eq_true, decide_eq_true_eq,
    List.mem_cons, List.mem_singleton, List.not_mem_nil, or_false]
  omega

theorem malformedEscape_cons (c : Char) (l : List Char) (hc : c ≠ '%') :
    malformedEscape (c :: l) ↔ malformedEscape l := by
  constructor
  · rintro ⟨pre, post, h, hp⟩
    cases pre with
    | nil =>
      simp only [List.nil_append, List.cons.injEq] at h
      exact absurd h.1 hc
    | cons x pre =>
      simp only [List.cons_append, List.cons.injEq] at h
      exact ⟨pre, post, h.2, hp⟩
  · rintro ⟨pre, post, h, hp⟩
    exact ⟨c :: pre, post, by rw [h]; rfl, hp⟩

theorem malformedEscape_escape (a b : Char) (rest : List Char)
    (ha : a ∈ hexDigits) (hb : b ∈ hexDigits) :
    malformedEscape ('%' :: a :: b :: rest) ↔ malformedEscape rest := by
  have hpa : a ≠ '%' := by
    rintro rfl
    exact absurd ha (by decide)
  have hpb : b ≠ '%' := by
    rintro rfl
    exact absurd hb (by decide)
  constructor
  · rintro ⟨pre, post, h, hp⟩
    cases pre with
    | nil =>
      simp only [List.nil_append, List.cons.injEq, true_and] at h
      exact absurd ⟨ha, hb⟩ (hp a b rest h.symm)
    | cons x pre =>
      simp only [List.cons_append, List.cons.injEq] at h
      exact (malformedEscape_cons b rest hpb).1
        ((malformedEscape_cons a (b :: rest) hpa).1 ⟨pre, post, h.2, hp⟩)
  · intro h
    have h1 := (malformedEscape_cons b rest hpb).2 h
    have h2 := (malformedEscape_cons a (b :: rest) hpa).2 h1
    obtain ⟨pre, post, e, hp⟩ := h2
    exact ⟨'%' :: pre, post, by rw [e]; rfl, hp⟩

theorem unescape_eq_none_iff (plusIsSpace : Bool) (l : List Char) :
    unescape plusIsSpace l = none ↔ malformedEscape l := by
  induction l using unescape.induct plusIsSpace with
  | case1 =>
    simp only [unescape, reduceCtorEq, false_iff]
    rintro ⟨pre, post, h, _⟩
    cases pre <;> simp at h
  | case2 a b rest hh ih =>
    have hab : ishex a = true ∧ ishex b = true := by simpa using hh
    rw [malformedEscape_escape a b rest ((ishex_iff a).1 hab.1) ((ishex_iff b).1 hab.2), ← ih]
    simp [unescape, hab.1, hab.2]
  | case3 a b rest hh =>
    have hn : unescape plusIsSpace ('%' :: a :: b :: rest) = none := by
      simp only [unescape, hh, if_false]
      simp
    rw [hn]
    simp only [true_iff]
    refine ⟨[], a :: b :: rest, rfl, ?_⟩
    intro a' b' rest' e
    simp only [List.cons.injEq] at e
    rw [← e.1, ← e.2.1, ← ishex_iff, ← ishex_iff]
    simpa using hh
  | case4 tail ht =>
    have hn : unescape plusIsSpace ('%' :: tail) = none := by
      cases tail with
      | nil => simp [unescape]
      | cons a t =>
        cases t with
        | nil => simp [unescape]
        | cons b r => exact absurd rfl (fun e => ht a b r e)
    rw [hn]
    simp only [true_iff]
    exact ⟨[], tail, rfl, fun a b rest e => absurd e (fun e => ht a b rest e)⟩
  | case5 c rest _ hc ih =>
    have hc' : c ≠ '%' := fun e => hc e
    rw [malformedEscape_cons c rest hc', ← ih]
    have : unescape plusIsSpace (c :: rest) =
        (unescape plusIsSpace rest).map
          (fun t => (if c = '+' && plusIsSpace then ' ' else c) :: t) := by
      cases rest with
      | nil => simp [unescape, hc']
      | cons a t =>
        cases t with
        | nil => simp [unescape, hc']
        | cons b r => simp [unescape, hc']
    rw [this]
    simp

theorem hasControl_iff (l : List Char) :
    hasControl l = true ↔ ∃ c ∈ l, c.toNat < 0x20 ∨ c.toNat = 0x7F := by
  simp [hasControl, List.any_eq_true]

/-- C10, as amended: for every string `u` that `url.Parse` rejects,
`DecomposeUrl` returns `u` unchanged as the path with the nil map of query
parameters (no error is returned) and the Query-params-from-URL section is
absent.  `url.Parse` rejects every `u` with a control character before its
fragment, and every origin-form `u` with a malformed percent-escape in its
path or in its fragment.  It accepts every other origin-form `u`, whatever
its query: `DecomposeUrl` then returns the unescaped path, and the query
parameters are those pairs of the query that unescape. -/
theorem decomposeUrl_rejected (L : Libs) (R : Runtime) (entry : Log) (u : String) :
    (L.urlParse u = none →
      DecomposeUrl L u = (u, none) ∧
      QueryParamFromUrlSection L R { entry with Url := u } = "") ∧
    ((∃ c ∈ beforeFragment u, c.toNat < 0x20 ∨ c.toNat = 0x7F) → L.urlParse u = none) ∧
    (originForm u = true →
      (malformedEscape (pathPart u) ∨ malformedEscape (fragmentOf u)) →
      L.urlParse u = none) ∧
    (originForm u = true →
      (¬ ∃ c ∈ beforeFragment u, c.toNat < 0x20 ∨ c.toNat = 0x7F) →
      ¬ malformedEscape (pathPart u) → ¬ malformedEscape (fragmentOf u) →
      ∃ path, unescape false (pathPart u) = some path ∧
        DecomposeUrl L u = (⟨path⟩, some (parseQuery (rawQueryOf u)))) := by
  refine ⟨fun h => ?_, fun h => ?_, fun ho h => ?_, fun ho hc hp hf => ?_⟩
  · have hd : DecomposeUrl L u = (u, none) := by simp only [DecomposeUrl, h]
    refine ⟨hd, ?_⟩
    simp only [QueryParamFromUrlSection, hd]
  · exact L.urlParse_control u ((hasControl_iff _).2 h)
  · rw [L.urlParse_origin u ho]
    unfold originParse
    split
    · rfl
    · rcases h with h | h
      · rw [(unescape_eq_none_iff false _).2 h]
      · rw [(unescape_eq_none_iff false _).2 h]
        cases unescape false (pathPart u) <;> rfl
  · have hc' : hasControl (beforeFragment u) = false := by
      cases h : hasControl (beforeFragment u) with
      | false => rfl
      | true => exact absurd ((hasControl_iff _).1 h) hc
    cases hpath : unescape false (pathPart u) with
    | none => exact absurd ((unescape_eq_none_iff false _).1 hpath) hp
    | some path =>
      cases hfrag : unescape false (fragmentOf u) with
      | none => exact absurd ((unescape_eq_none_iff false _).1 hfrag) hf
      | some frag =>
        refine ⟨path, rfl, ?_⟩
        simp only [DecomposeUrl, L.urlParse_origin u ho, originParse, hc', Bool.false_eq_true,
          if_false, hpath, hfrag]

/-- C10 in the reference environment: a URL with a malformed percent-escape
in its path and a URL with a control character are rejected; a URL whose
query holds a malformed percent-escape is accepted. -/
theorem decomposeUrl_rejected_witness :
    (DecomposeUrl plainLibs "/1/indexes/%zz" = ("/1/indexes/%zz", none) ∧
      QueryParamFromUrlSection plainLibs inOrder
        { plainEntry with Url := "/1/indexes/%zz" } = "") ∧
    plainLibs.urlParse "/1/in\x07dexes?a=1" = none ∧
    (∃ path, unescape false (pathPart "/p?a=1&b=%zz") = some path ∧
      DecomposeUrl plainLibs "/p?a=1&b=%zz" =
        (⟨path⟩, some (parseQuery (rawQueryOf "/p?a=1&b=%zz")))) :=
  ⟨(decomposeUrl_rejected plainLibs inOrder plainEntry "/1/indexes/%zz").1
      ((decomposeUrl_rejected plainLibs inOrder plainEntry "/1/indexes/%zz").2.2.1
        (by decide) (Or.inl ((unescape_eq_none_iff false _).1 (by decide)))),
   (decomposeUrl_rejected plainLibs inOrder plainEntry "/1/in\x07dexes?a=1").2.1
      ⟨Char.ofNat 7, by decide, by decide⟩,
   (decomposeUrl_rejected plainLibs inOrder plainEntry "/p?a=1&b=%zz").2.2.2
      (by decide) (by decide)
      (fun h => absurd ((unescape_eq_none_iff false _).2 h) (by decide))
      (fun h => absurd ((unescape_eq_none_iff false _).2 h) (by decide))⟩

/-- C10, as stated, fails: `/p?a=1&b=%zz` has a malformed percent-escape, yet
`DecomposeUrl` does not return it unchanged: the path is `/p`, the query
parameter `a` is kept and the section is present.  For `/p?a=%zz` the path
is `/p` and the map of query parameters is empty, not nil. -/
theorem decomposeUrl_query_escape :
    malformedEscape "/p?a=1&b=%zz".data ∧
    DecomposeUrl plainLibs "/p?a=1&b=%zz" = ("/p", some [("a", ["1"])]) ∧
    QueryParamFromUrlSection plainLibs inOrder { plainEntry with Url := "/p?a=1&b=%zz" } =
      "───────────────────────\nQuery params (from URL)\na: 1                   " ∧
    malformedEscape "/p?a=%zz".data ∧
    DecomposeUrl plainLibs "/p?a=%zz" = ("/p", some []) :=
  ⟨(unescape_eq_none_iff false _).1 (by decide), by decide, by decide,
   (unescape_eq_none_iff false _).1 (by decide), by decide⟩

/-- How `url.Parse` and `Query()` treat escapes, `+`, `;`, empty pairs and
repeated keys on an origin-form URL, and a malformed escape in the fragment. -/
theorem originParse_examples :
    originParse "/a%20b?x=1+2&y=%41&x=3;4&&z&x=5#frag" =
      some ("/a b", [("x", ["1 2", "5"]), ("y", ["A"]), ("z", [""])]) ∧
    originParse "/p#%zz" = none ∧
    originParse "/p?#a\x07" = some ("/p", []) := by
  decide

/-! ## `RequestBodySection` -/

theorem len_eq_zero_iff (s : String) : len s = 0 ↔ s = "" := by
  constructor
  · intro h
    apply String.ext
    cases hd : s.data with
    | nil => rfl
    | cons c cs =>
      have hpos := Char.utf8Size_pos c
      simp only [len, hd, List.map_cons, List.sum_cons] at h
      omega
  · rintro rfl
    rfl

theorem rdropWhile_append_rtakeWhile {α : Type} (p : α → Bool) (l : List α) :
    l.rdropWhile p ++ l.rtakeWhile p = l := by
  unfold List.rdropWhile List.rtakeWhile
  rw [← List.reverse_append, List.takeWhile_append_dropWhile, List.reverse_reverse]

theorem eq_replicate_of_all {α : Type} (a : α) (l : List α) (h : ∀ b ∈ l, b = a) :
    l = List.replicate l.length a :=
  List.eq_replicate_iff.2 ⟨rfl, h⟩

theorem trimBoth_spec (c : Char) (l : List Char) :
    (∃ i j, l = List.replicate i c ++ trimBoth (fun x => decide (x = c)) l ++
      List.replicate j c) ∧
    (trimBoth (fun x => decide (x = c)) l).head? ≠ some c ∧
    (trimBoth (fun x => decide (x = c)) l).getLast? ≠ some c := by
  have htake : ∃ i, l.takeWhile (fun x => decide (x = c)) = List.replicate i c :=
    ⟨_, eq_replicate_of_all c _ (fun b hb => by simpa using List.mem_takeWhile_imp hb)⟩
  have hrtake : ∃ j, (l.dropWhile (fun x => decide (x = c))).rtakeWhile
      (fun x => decide (x = c)) = List.replicate j c :=
    ⟨_, eq_replicate_of_all c _ (fun b hb => by simpa using List.mem_rtakeWhile_imp hb)⟩
  obtain ⟨i, hi⟩ := htake
  obtain ⟨j, hj⟩ := hrtake
  refine ⟨⟨i, j, ?_⟩, ?_, ?_⟩
  · unfold trimBoth
    rw [← hi, ← hj, List.append_assoc, rdropWhile_append_rtakeWhile,
      List.takeWhile_append_dropWhile]
  · unfold trimBoth
    intro hh
    have hpre : (l.dropWhile (fun x => decide (x = c))).rdropWhile (fun x => decide (x = c))
        <+: l.dropWhile (fun x => decide (x = c)) := List.rdropWhile_prefix _ _
    obtain ⟨t, ht⟩ := hpre
    cases hr : (l.dropWhile (fun x => decide (x = c))).rdropWhile (fun x => decide (x = c)) with
    | nil => rw [hr] at hh; simp at hh
    | cons a r =>
      rw [hr] at hh ht
      have ha : a = c := by simpa using hh
      have hne : l.dropWhile (fun x => decide (x = c)) ≠ [] := by rw [← ht]; simp
      have := List.head_dropWhile_not (fun x => decide (x = c)) l hne
      simp only [← ht, List.cons_append, List.head_cons] at this
      simp [ha] at this
  · unfold trimBoth
    intro hh
    have hne : (l.dropWhile (fun x => decide (x = c))).rdropWhile (fun x => decide (x = c)) ≠
        [] := by
      intro e; rw [e] at hh; simp at hh
    have := List.rdropWhile_last_not (fun x => decide (x = c))
      (l.dropWhile (fun x => decide (x = c))) hne
    rw [List.getLast?_eq_getLast _ hne] at hh
    simp only [Option.some.injEq] at hh
    simp [hh] at this

theorem isSpace_eq (c : Char) : isSpace c = decide (c.toNat ∈ whiteSpaceCodes) := by
  rw [Bool.eq_iff_iff]
  simp only [isSpace, whiteSpaceCodes, Bool.or_eq_true, Bool.and_eq_true, decide_eq_true_eq,
    List.mem_cons, List.mem_singleton, List.not_mem_nil, or_false]
  omega

theorem utf8ByteSize_eq_len (s : String) : s.utf8ByteSize = len s := by
  obtain ⟨l⟩ := s
  simp only [String.utf8ByteSize, len]
  induction l with
  | nil => rfl
  | cons c cs ih => simp only [String.utf8ByteSize.go, ih, List.map_cons, List.sum_cons]; omega


/-- C3: for every request body `b`, the section is absent (the empty string)
when `b` is the empty string.  Otherwise the section is the bordered block
of the bold title and the JSON highlighting of a text: the text is `{}`
when `b`, with every newline removed and the white space around the rest
trimmed, is exactly 2 bytes long; else it is `b` without its leading and
trailing newlines (`b` is the text between two runs of newlines, and the
text neither starts nor ends with a newline).  With a highlighter that
shows what it is given: the bodies `{}`, `{`newline`}` and any other body
of two bytes after trimming are shown as `{}`, other bodies as they are
without the newlines around them. -/
theorem requestBodySection_spec (L : Libs) (entry : Log) :
    (entry.QueryBody = "" → RequestBodySection L entry = "") ∧
    (entry.QueryBody ≠ "" → ∃ text : String,
      RequestBodySection L entry =
        L.render
          { maxWidth := 120, border := some .normal, borderTop := true,
            borderForeground := some "#303030" }
          (JoinVertical L [L.render { bold := true } "Request body",
            HighlightSyntax L text "json"]) ∧
      ((String.mk (((entry.QueryBody.data.filter (fun c => c ≠ '\n')).dropWhile
          (fun c => decide (c.toNat ∈ whiteSpaceCodes))).rdropWhile
          (fun c => decide (c.toNat ∈ whiteSpaceCodes)))).utf8ByteSize = 2 →
        text = "\x7b\x7d") ∧
      (¬ (String.mk (((entry.QueryBody.data.filter (fun c => c ≠ '\n')).dropWhile
          (fun c => decide (c.toNat ∈ whiteSpaceCodes))).rdropWhile
          (fun c => decide (c.toNat ∈ whiteSpaceCodes)))).utf8ByteSize = 2 →
        (∃ i j, entry.QueryBody.data =
          List.replicate i '\n' ++ text.data ++ List.replicate j '\n') ∧
        text.data.head? ≠ some '\n' ∧ text.data.getLast? ≠ some '\n')) ∧
    (RequestBodySection tagLibs { QueryBody := "" } = "" ∧
      RequestBodySection tagLibs { QueryBody := "\x7b\x7d" } =
        "─────────────────────────────\nRequest body                 \n[json terminal256 monokai:\x7b\x7d]" ∧
      RequestBodySection tagLibs { QueryBody := "\x7b\n\x7d" } =
        "─────────────────────────────\nRequest body                 \n[json terminal256 monokai:\x7b\x7d]" ∧
      RequestBodySection tagLibs { QueryBody := " \x7b\n\x7d\t\n" } =
        "─────────────────────────────\nRequest body                 \n[json terminal256 monokai:\x7b\x7d]" ∧
      RequestBodySection tagLibs { QueryBody := "é" } =
        "─────────────────────────────\nRequest body                 \n[json terminal256 monokai:\x7b\x7d]" ∧
      RequestBodySection tagLibs { QueryBody := "\n\n" } =
        "───────────────────────────\nRequest body               \n[json terminal256 monokai:]" ∧
      RequestBodySection tagLibs { QueryBody := "\n\x7b\"a\": 1\x7d\n" } =
        "───────────────────────────────────\nRequest body                       \n[json terminal256 monokai:\x7b\"a\": 1\x7d]" ∧
      RequestBodySection tagLibs { QueryBody := "\x7b \x7d" } =
        "──────────────────────────────\nRequest body                  \n[json terminal256 monokai:\x7b \x7d]") := by
  have hws : isSpace = fun c => decide (c.toNat ∈ whiteSpaceCodes) := funext isSpace_eq
  have hlen : (String.mk (((entry.QueryBody.data.filter (fun c => c ≠ '\n')).dropWhile
      (fun c => decide (c.toNat ∈ whiteSpaceCodes))).rdropWhile
      (fun c => decide (c.toNat ∈ whiteSpaceCodes)))).utf8ByteSize =
      len (Trim entry.QueryBody) := by
    rw [utf8ByteSize_eq_len, Trim, TrimSpace, RemoveNewlines, trimBoth, hws]
  refine ⟨fun hb => ?_, fun hb => ?_, by decide⟩
  · unfold RequestBodySection
    simp [hb, len]
  · have hl : ¬ len entry.QueryBody = 0 := fun h => hb ((len_eq_zero_iff _).1 h)
    refine ⟨requestBodyText entry.QueryBody, ?_, fun h2 => ?_, fun h2 => ?_⟩
    · unfold RequestBodySection
      simp only [hl, if_false]
      rfl
    · rw [hlen] at h2
      unfold requestBodyText
      simp only [h2, if_true]
      rfl
    · rw [hlen] at h2
      have ht : requestBodyText entry.QueryBody = TrimNewlines entry.QueryBody := by
        unfold requestBodyText
        simp only [h2, if_false]
      rw [ht]
      exact trimBoth_spec '\n' entry.QueryBody.data

/-! ## Lines of a vertically joined block -/

theorem splitAux_no_sep (sep : Char) (x : List Char) :
    sep ∉ (splitAux sep x).1 ∧ ∀ l ∈ (splitAux sep x).2, sep ∉ l := by
  induction x with
  | nil => simp [splitAux]
  | cons c cs ih =>
    by_cases hc : c = sep
    · simp only [splitAux, hc, if_true, List.not_mem_nil, not_false_eq_true, List.mem_cons,
        true_and]
      rintro l (rfl | hl)
      · exact ih.1
      · exact ih.2 l hl
    · simp only [splitAux, hc, if_false, List.mem_cons, not_or]
      exact ⟨⟨fun e => hc e.symm, ih.1⟩, ih.2⟩

theorem not_mem_of_mem_splitOnChar (sep : Char) (x l : List Char)
    (hl : l ∈ splitOnChar sep x) : sep ∉ l := by
  unfold splitOnChar at hl
  rcases List.mem_cons.1 hl with rfl | hl
  · exact (splitAux_no_sep sep x).1
  · exact (splitAux_no_sep sep x).2 l hl

theorem splitOnChar_joinChars (c : Char) (ls : List (List Char)) (hne : ls ≠ [])
    (h : ∀ l ∈ ls, c ∉ l) : splitOnChar c (joinChars [c] ls) = ls := by
  induction ls with
  | nil => exact absurd rfl hne
  | cons a r ih =>
    cases r with
    | nil => exact splitOnChar_of_not_mem c a (h a (List.mem_cons_self _ _))
    | cons b r =>
      have ha : c ∉ a := h a (List.mem_cons_self _ _)
      have hr : ∀ l ∈ b :: r, c ∉ l := fun l hl => h l (List.mem_cons_of_mem _ hl)
      simp only [joinChars, List.append_assoc, List.singleton_append]
      rw [splitOnChar_append_sep c a _ ha, ih (by simp) hr]

theorem no_newline_of_mem_SplitLines (s line : String) (h : line ∈ SplitLines s) :
    '\n' ∉ line.data := by
  unfold SplitLines at h
  obtain ⟨l, hl, rfl⟩ := List.mem_map.1 h
  exact not_mem_of_mem_splitOnChar '\n' s.data l hl

theorem SplitLines_ne_nil (s : String) : SplitLines s ≠ [] := by
  simp [SplitLines, splitOnChar]

theorem SplitLines_Join (ls : List String) (hne : ls ≠ [])
    (h : ∀ l ∈ ls, '\n' ∉ l.data) : SplitLines (Join ls "\n") = ls := by
  unfold SplitLines Join
  have hd : ("\n" : String).data = ['\n'] := rfl
  rw [hd]
  simp only
  rw [splitOnChar_joinChars '\n' (ls.map String.data) (by simpa using hne)
    (by
      intro l hl
      obtain ⟨x, hx, rfl⟩ := List.mem_map.1 hl
      exact h x hx)]
  rw [List.map_map]
  exact List.map_id'' (fun _ => rfl) ls

theorem pieceLines_eq (L : Libs) (W : Nat) (s : String) :
    pieceLines L W s = (SplitLines s).map (padLine L W) := by
  unfold pieceLines
  split
  · rename_i h
    subst h
    rfl
  · rfl

theorem SplitLines_JoinVertical (L : Libs) (a b : String) (r : List String) :
    SplitLines (JoinVertical L (a :: b :: r)) =
      ((a :: b :: r).map (pieceLines L (blockWidth L (a :: b :: r)))).flatten := by
  have hp : (a :: b :: r).map (pieceLines L (blockWidth L (a :: b :: r))) =
      (a :: b :: r).map (fun s => (SplitLines s).map (padLine L (blockWidth L (a :: b :: r)))) :=
    List.map_congr_left (fun s _ => pieceLines_eq L _ s)
  rw [hp]
  have hflat : ∀ (f : String → String) (xs : List String),
      ((xs.map SplitLines).flatten).map f = (xs.map (fun s => (SplitLines s).map f)).flatten := by
    intro f xs
    induction xs with
    | nil => rfl
    | cons x xs ih => simp only [List.map_cons, List.flatten_cons, List.map_append, ih]
  rw [← hflat]
  unfold JoinVertical
  simp only
  apply SplitLines_Join
  · have := SplitLines_ne_nil a
    simp only [List.map_cons, List.flatten_cons, ne_eq, List.map_eq_nil_iff,
      List.append_eq_nil, this, false_and, not_false_eq_true]
  · intro l hl
    obtain ⟨line, hline, rfl⟩ := List.mem_map.1 hl
    obtain ⟨ls, hls, hmem⟩ := List.mem_flatten.1 hline
    obtain ⟨s, _, rfl⟩ := List.mem_map.1 hls
    have hno := no_newline_of_mem_SplitLines s line hmem
    simp only [String.data_append, spaces, List.mem_append, List.mem_replicate, not_or]
    exact ⟨hno, fun h => absurd h.2 (by decide)⟩

/-- C4, as amended: the vertically joined block of a panel has the lines of the
header line followed, for each of the five sections in their fixed order, by
the lines of that section, every line padded on the right with spaces to the
width of the block; an absent section (the empty string) contributes no
title and no border line, and exactly one line, which consists of spaces. -/
theorem panelBlock_lines (L : Libs) (R : Runtime) (entry : Log) (i : Int) (w : Bool) :
    (panelBlock L R entry i w).map SplitLines =
      (LogEntryHeader L entry i).map (fun header =>
        ((header :: sections L R entry w).map
          (pieceLines L (blockWidth L (header :: sections L R entry w)))).flatten) := by
  unfold panelBlock
  cases LogEntryHeader L entry i with
  | none => rfl
  | some header =>
    simp only [Option.map_some']
    rw [sections, SplitLines_JoinVertical]

/-- C4, as stated, fails: with the response switched off, `plainEntry` has four
absent sections, and the joined block of its panel ends in four blank
lines, one for each of them. -/
theorem panelBlock_blank_lines :
    sections plainLibs inOrder plainEntry false =
      ["Headers    \nAccept: */*", "", "", "", ""] ∧
    (panelBlock plainLibs inOrder plainEntry 0 false).map SplitLines = some
      ["#1 │ GET │ 200 │ /1/keys │ 2024-01-02 03:04:05",
       "──────────────────────────────────────────────",
       "Headers                                       ",
       "Accept: */*                                   ",
       "                                              ",
       "                                              ",
       "                                              ",
       "                                              "] := by
  decide

/-! ## Sections that are never absent -/

theorem headerKeys_of_no_headers (L : Libs) (R : Runtime) (entry : Log)
    (h : ParseHTTPHeaders entry.QueryHeaders = []) : headerKeys L R entry = [] := by
  unfold headerKeys rangeKeys
  rw [h]
  have h1 : R.mapOrder (GoMap.keys ([] : GoMap String)) = [] :=
    List.Perm.eq_nil (R.mapOrder_perm _)
  rw [h1]
  exact List.Perm.eq_nil (L.sortSlice_perm _ _)

/-- C5: the code renders where the claim says the section is absent.  For an
entry whose raw header text is empty (it parses to zero headers)
`HeaderSection` renders the title `Headers` joined with an empty line; in
the reference environment the result is the title line and a blank line. -/
theorem headerSection_no_headers (L : Libs) (R : Runtime) (entry : Log) :
    ParseHTTPHeaders "" = [] ∧
    HeaderSection L R { entry with QueryHeaders := "" } =
      L.render { maxWidth := 120 } (JoinVertical L [Bold L "Headers", ""]) ∧
    HeaderSection plainLibs inOrder { entry with QueryHeaders := "" } = "Headers\n       " := by
  have h0 : ParseHTTPHeaders "" = [] := by decide
  have hgen : ∀ (L : Libs) (R : Runtime),
      HeaderSection L R { entry with QueryHeaders := "" } =
        L.render { maxWidth := 120 } (JoinVertical L [Bold L "Headers", ""]) := by
    intro L R
    unfold HeaderSection styledHeaders
    rw [headerKeys_of_no_headers L R _ h0]
    rfl
  refine ⟨h0, hgen L R, ?_⟩
  rw [hgen]
  decide

/-- C6: the code renders where the claim says the section is absent.  For an
entry whose query-params string is present and empty `QueryParamSection`
renders the title joined with an empty line; in the reference environment
the result is a border line, the title line and a blank line. -/
theorem queryParamSection_empty_string (L : Libs) (entry : Log) :
    QueryParamSection L { entry with QueryParams := some "" } =
      L.render sectionStyle (JoinVertical L [Bold L "Query params (from response)", ""]) ∧
    QueryParamSection plainLibs { entry with QueryParams := some "" } =
      "────────────────────────────\nQuery params (from response)\n                            " ∧
    QueryParamSection L { entry with QueryParams := none } = "" := by
  refine ⟨rfl, ?_, rfl⟩
  have : QueryParamSection plainLibs { entry with QueryParams := some "" } =
      plainLibs.render sectionStyle
        (JoinVertical plainLibs [Bold plainLibs "Query params (from response)", ""]) := rfl
  rw [this]
  decide

/-! ## The order of the listed keys -/

theorem lessChars_asymm (a b : List Char) (h : lessChars a b = true) :
    lessChars b a = false := by
  induction a generalizing b with
  | nil => cases b <;> simp [lessChars] at h ⊢
  | cons x xs ih =>
    cases b with
    | nil => simp [lessChars] at h
    | cons y ys =>
      simp only [lessChars, Bool.or_eq_true, decide_eq_true_eq, Bool.and_eq_true] at h
      simp only [lessChars, Bool.or_eq_false_iff, decide_eq_false_iff_not,
        Bool.and_eq_false_iff]
      rcases h with h | ⟨h1, h2⟩
      · exact ⟨by omega, Or.inl (by omega)⟩
      · exact ⟨by omega, Or.inr (ih ys h2)⟩

theorem lessChars_negtrans (a b c : List Char) (h1 : lessChars a b = false)
    (h2 : lessChars b c = false) : lessChars a c = false := by
  induction a generalizing b c with
  | nil =>
    cases c with
    | nil => simp [lessChars]
    | cons z zs =>
      cases b with
      | nil => simp [lessChars] at h2
      | cons y ys => simp [lessChars] at h1
  | cons x xs ih =>
    cases c with
    | nil => simp [lessChars]
    | cons z zs =>
      cases b with
      | nil => simp [lessChars] at h2
      | cons y ys =>
        simp only [lessChars, Bool.or_eq_false_iff, decide_eq_false_iff_not,
          Bool.and_eq_false_iff] at h1 h2 ⊢
        refine ⟨by omega, ?_⟩
        by_cases hxz : x.toNat = z.toNat
        · right
          have hxy : x.toNat = y.toNat := by omega
          have hyz : y.toNat = z.toNat := by omega
          rcases h1.2 with h | h
          · exact absurd hxy h
          · rcases h2.2 with h' | h'
            · exact absurd hyz h'
            · exact ih ys zs h h'
        · exact Or.inl hxz

theorem lessChars_antisymm (a b : List Char) (h1 : lessChars a b = false)
    (h2 : lessChars b a = false) : a = b := by
  induction a generalizing b with
  | nil =>
    cases b with
    | nil => rfl
    | cons y ys => simp [lessChars] at h1
  | cons x xs ih =>
    cases b with
    | nil => simp [lessChars] at h2
    | cons y ys =>
      simp only [lessChars, Bool.or_eq_false_iff, decide_eq_false_iff_not,
        Bool.and_eq_false_iff] at h1 h2
      have hxy : x.toNat = y.toNat := by omega
      have hc : x = y := by
        have e1 := Char.ofNat_toNat x
        have e2 := Char.ofNat_toNat y
        rw [← e1, ← e2, hxy]
      subst hc
      rcases h1.2 with h | h
      · exact absurd rfl h
      · rcases h2.2 with h' | h'
        · exact absurd rfl h'
        · rw [ih ys h h']

theorem eq_of_perm_of_pairwise {α : Type} (r : α → α → Prop) (l1 l2 : List α)
    (hp : l1.Perm l2) (h1 : l1.Pairwise r) (h2 : l2.Pairwise r)
    (hanti : ∀ a ∈ l1, ∀ b ∈ l1, r a b → r b a → a = b) : l1 = l2 := by
  induction l1 generalizing l2 with
  | nil => exact (List.Perm.nil_eq hp)
  | cons a t1 ih =>
    cases l2 with
    | nil => exact absurd (List.Perm.eq_nil hp) (by simp)
    | cons b t2 =>
      rw [List.pairwise_cons] at h1 h2
      have hab : a = b := by
        by_contra hne
        have ha : a ∈ t2 := by
          rcases List.mem_cons.1 (hp.subset (List.mem_cons_self _ _)) with h | h
          · exact absurd h hne
          · exact h
        have hb : b ∈ t1 := by
          rcases List.mem_cons.1 (hp.symm.subset (List.mem_cons_self _ _)) with h | h
          · exact absurd h.symm hne
          · exact h
        exact hne (hanti a (List.mem_cons_self _ _) b (List.mem_cons_of_mem _ hb)
          (h1.1 b hb) (h2.1 a ha))
      subst hab
      rw [ih t2 (List.Perm.cons_inv hp) h1.2 h2.2
        (fun x hx y hy => hanti x (List.mem_cons_of_mem _ hx) y (List.mem_cons_of_mem _ hy))]

theorem headerKeys_perm (L : Libs) (R : Runtime) (entry : Log) :
    (headerKeys L R entry).Perm (ParseHTTPHeaders entry.QueryHeaders).keys :=
  (L.sortSlice_perm _ _).trans (R.mapOrder_perm _)

theorem headerKeys_sorted (L : Libs) (R : Runtime) (entry : Log) :
    (headerKeys L R entry).Pairwise
      (fun a b => strLess (ToLower L b) (ToLower L a) = false) :=
  L.sortSlice_sorted (headerLess L) _
    (fun _ _ h => lessChars_asymm _ _ h)
    (fun _ _ _ h1 h2 => lessChars_negtrans _ _ _ h1 h2)

/-- C8, as amended: the keys `HeaderSection` lists are sorted
case-insensitively (no key is followed by one whose lower-cased form is
smaller), whatever the iteration order of the parsed map; and when no two
distinct keys of the blob have the same lower-cased form, the listed order
and the rendered section are the same for every iteration order. -/
theorem headerKeys_deterministic (L : Libs) (R1 R2 : Runtime) (entry : Log) :
    (headerKeys L R1 entry).Pairwise
      (fun a b => strLess (ToLower L b) (ToLower L a) = false) ∧
    ((∀ a ∈ (ParseHTTPHeaders entry.QueryHeaders).keys,
        ∀ b ∈ (ParseHTTPHeaders entry.QueryHeaders).keys,
          ToLower L a = ToLower L b → a = b) →
      headerKeys L R1 entry = headerKeys L R2 entry ∧
      HeaderSection L R1 entry = HeaderSection L R2 entry) := by
  refine ⟨headerKeys_sorted L R1 entry, fun hinj => ?_⟩
  have hk : headerKeys L R1 entry = headerKeys L R2 entry := by
    apply eq_of_perm_of_pairwise _ _ _
      ((headerKeys_perm L R1 entry).trans (headerKeys_perm L R2 entry).symm)
      (headerKeys_sorted L R1 entry) (headerKeys_sorted L R2 entry)
    intro a ha b hb hab hba
    apply hinj a ((headerKeys_perm L R1 entry).subset ha) b
      ((headerKeys_perm L R1 entry).subset hb)
    exact String.ext (lessChars_antisymm _ _ hba hab)
  refine ⟨hk, ?_⟩
  unfold HeaderSection styledHeaders
  rw [hk]

/-- C8 at `twoHeaders`: maps visited in insertion order and in reverse order
give the same list of keys and the same section. -/
theorem headerKeys_deterministic_witness :
    (∀ a ∈ (ParseHTTPHeaders twoHeaders.QueryHeaders).keys,
      ∀ b ∈ (ParseHTTPHeaders twoHeaders.QueryHeaders).keys,
        ToLower plainLibs a = ToLower plainLibs b → a = b) ∧
    headerKeys plainLibs inOrder twoHeaders = headerKeys plainLibs reversed twoHeaders ∧
    HeaderSection plainLibs inOrder twoHeaders = HeaderSection plainLibs reversed twoHeaders :=
  ⟨by decide, (headerKeys_deterministic plainLibs inOrder reversed twoHeaders).2 (by decide)⟩

/-- C8, as stated, fails: for the keys `X-Key` and `x-key` the listed order
follows the iteration order of the map. -/
theorem headerKeys_case_variants :
    headerKeys plainLibs inOrder caseVariants = ["X-Key", "x-key"] ∧
    headerKeys plainLibs reversed caseVariants = ["x-key", "X-Key"] ∧
    HeaderSection plainLibs inOrder caseVariants = "Headers \nX-Key: 1\nx-key: 2" ∧
    HeaderSection plainLibs reversed caseVariants = "Headers \nx-key: 2\nX-Key: 1" := by
  decide

/-- C9: the code lists the query parameters in the iteration order of the
map, where the claim says the order is fixed.  For the URL
`/1/indexes?a=1&b=2` a map visited in insertion order gives the lines
`a: 1`, `b: 2`, and a map visited in reverse order gives `b: 2`, `a: 1`. -/
theorem queryParamFromUrlSection_order :
    DecomposeUrl plainLibs twoParams.Url = ("/1/indexes", some [("a", ["1"]), ("b", ["2"])]) ∧
    QueryParamFromUrlSection plainLibs inOrder twoParams =
      "───────────────────────\nQuery params (from URL)\na: 1                   \nb: 2                   " ∧
    QueryParamFromUrlSection plainLibs reversed twoParams =
      "───────────────────────\nQuery params (from URL)\nb: 2                   \na: 1                   " := by
  decide

end SearchLogs
